import Mathlib

/-!
Verification development for the AHA MCP server's resource search engine
(`searchAhaResources` in `server.js`).

We shallowly embed the JavaScript function over a string model
`JsStr := List Char`.  JavaScript strings are sequences of code units;
all operations used by the search function (`toLowerCase`, `trim`,
`split(/\s+/)`, `includes`, `match`, template-literal concatenation,
`Array.prototype.filter/sort/map`) are modelled as pure Lean functions
on `List Char`.

Modelling notes, all tied to concrete lines of `server.js`:

* `String.prototype.toLowerCase` is modelled by mapping `Char.toLower`
  (exact on ASCII data, which is all the corpus and all concrete inputs
  used below contain).
* The whitespace class of `trim` and `/\s+/` is modelled by the six
  ASCII whitespace characters (space, tab, LF, CR, VT, FF); the extra
  Unicode space characters recognised by JavaScript play no role here.
* `new RegExp(term, "g")` followed by `searchableText.match(...)` is
  modelled by `parsePattern`/`matchCountG`.  The model is exact on the
  fragment of patterns consisting of literal characters and the `.`
  wildcard: such a pattern compiles, each match consumes exactly one
  code unit per pattern token, and the `g` flag counts the
  non-overlapping left-to-right matches.  Any pattern containing
  another regex metacharacter is conservatively modelled as a
  construction error (`Except.error ()`), matching JavaScript exactly
  on patterns, such as `"((("`, that are regex syntax errors.  All
  concrete patterns evaluated in the theorems below stay inside the
  fragment where the model agrees with JavaScript.
* The scoring loop can therefore fail (a thrown `SyntaxError` from the
  `RegExp` constructor); the embedding returns `Except Unit _`, with
  `Except.error ()` standing for the thrown exception.
* `Array.prototype.sort` with comparator `(a, b) => b.score - a.score`
  is a stable sort (ECMAScript 2019) by descending score; any stable
  sort under the same total preorder produces the same array, so it is
  modelled by a stable insertion sort `sortByScoreDesc`.
-/

set_option maxRecDepth 40000

namespace AhaSearch

/-- Decidable equality of `Except` values, used to evaluate the
embedding on concrete inputs. -/
instance instDecEqExcept {ε : Type u} {α : Type v} [DecidableEq ε] [DecidableEq α] :
    DecidableEq (Except ε α)
  | Except.error a, Except.error b =>
    if h : a = b then isTrue (by rw [h]) else isFalse (by intro hc; cases hc; exact h rfl)
  | Except.error _, Except.ok _ => isFalse (by intro hc; cases hc)
  | Except.ok _, Except.error _ => isFalse (by intro hc; cases hc)
  | Except.ok a, Except.ok b =>
    if h : a = b then isTrue (by rw [h]) else isFalse (by intro hc; cases hc; exact h rfl)

/-- Model of a JavaScript string: a list of characters. -/
abbrev JsStr := List Char

/-- Convert a Lean string literal into the model. -/
def js (s : String) : JsStr := s.toList

/-- Model of `String.prototype.toLowerCase` (exact on ASCII). -/
def jsToLower (s : JsStr) : JsStr := s.map Char.toLower

/-- The whitespace class used by `trim` and `/\s+/`
(ASCII part: space, tab, LF, CR, VT, FF). -/
def jsIsWs (c : Char) : Bool :=
  c == ' ' || c == '\t' || c == '\n' || c == '\r' || c == '\x0b' || c == '\x0c'

/-- Model of `String.prototype.trim`: drop whitespace at both ends. -/
def jsTrim (s : JsStr) : JsStr :=
  ((s.dropWhile jsIsWs).reverse.dropWhile jsIsWs).reverse

/-- Character-by-character tokenizer: `cur` holds the (reversed)
whitespace-free run currently being read. -/
def splitWsGo (cur : JsStr) : JsStr → List JsStr
  | [] => if cur.isEmpty then [] else [cur.reverse]
  | c :: cs =>
    if jsIsWs c then
      if cur.isEmpty then splitWsGo [] cs else cur.reverse :: splitWsGo [] cs
    else splitWsGo (c :: cur) cs

/-- Model of `queryLower.split(/\s+/).filter(term => term.length > 0)`:
the maximal whitespace-free runs of the string, in order. -/
def splitWs (s : JsStr) : List JsStr := splitWsGo [] s

/-- Is `n` a (contiguous) leading segment of `h`? -/
def leadsList : JsStr → JsStr → Bool
  | [], _ => true
  | _ :: _, [] => false
  | a :: as, b :: bs => a == b && leadsList as bs

/-- Model of `String.prototype.includes`: `containsSub hay needle` is
`true` iff `needle` occurs contiguously inside `hay`. -/
def containsSub : JsStr → JsStr → Bool
  | [], needle => needle.isEmpty
  | c :: t, needle => leadsList needle (c :: t) || containsSub t needle

/-- Tokens of the modelled regular-expression fragment: a literal
character, or the `.` wildcard. -/
inductive RTok where
  | lit (c : Char)
  | anyDot
deriving DecidableEq

/-- Characters with special meaning in a JavaScript pattern (other than
`.`, which the model supports). -/
def regexMeta (c : Char) : Bool :=
  c == '(' || c == ')' || c == '[' || c == ']' || c == '{' || c == '}' ||
  c == '*' || c == '+' || c == '?' || c == '|' || c == '^' || c == '$' || c == '\\'

/-- Model of the `new RegExp(term, "g")` constructor: compile the term
into tokens, or fail (the thrown `SyntaxError`) on a metacharacter
outside the supported fragment.  Exact on the literal-and-dot fragment
and on the syntactically invalid patterns used below. -/
def parsePattern : JsStr → Except Unit (List RTok)
  | [] => Except.ok []
  | c :: cs =>
    if regexMeta c then Except.error ()
    else
      match parsePattern cs with
      | Except.error e => Except.error e
      | Except.ok ts =>
        Except.ok ((if c == '.' then RTok.anyDot else RTok.lit c) :: ts)

/-- One token against one character; `.` matches anything but a line
terminator, as in JavaScript. -/
def tokMatches : RTok → Char → Bool
  | RTok.lit c, x => x == c
  | RTok.anyDot, x => !(x == '\n' || x == '\r' || x == '\u2028' || x == '\u2029')

/-- Try to match the whole token list at the start of the string,
returning the remainder on success. -/
def matchTokens : List RTok → JsStr → Option JsStr
  | [], s => some s
  | _ :: _, [] => none
  | t :: ts, c :: cs => if tokMatches t c then matchTokens ts cs else none

/-- Fuelled scan counting non-overlapping left-to-right matches. -/
def scanCount (ts : List RTok) : Nat → JsStr → Nat
  | 0, _ => 0
  | _ + 1, [] => 0
  | fuel + 1, c :: cs =>
    match matchTokens ts (c :: cs) with
    | some rest => 1 + scanCount ts fuel rest
    | none => scanCount ts fuel cs

/-- Model of `(s.match(re) || []).length` for a compiled global
pattern: the number of non-overlapping matches found scanning left to
right.  (An empty pattern matches `s.length + 1` times in JavaScript;
the search code only compiles terms of length at least 3.) -/
def matchCountG (ts : List RTok) (s : JsStr) : Nat :=
  if ts.isEmpty then s.length + 1 else scanCount ts s.length s

/-- One record of `resources/aha-resources.json` as consumed by
`searchAhaResources`: `keywords` and `url` are optional fields. -/
structure Resource where
  id : JsStr
  title : JsStr
  category : JsStr
  content : JsStr
  keywords : Option (List JsStr)
  url : Option JsStr
deriving DecidableEq

/-- Model of `resource.keywords?.join(" ") || ""`. -/
def kwText : Option (List JsStr) → JsStr
  | none => []
  | some ks => List.intercalate [' '] ks

/-- The searchable text blob (`server.js` lines 34-39): a template
literal interpolating title, category, content and the space-joined
keywords, each field preceded by `"\n      "` and followed by a space
(a final `"\n    "` closes the literal), then lowercased. -/
def searchableText (r : Resource) : JsStr :=
  jsToLower (js "\n      " ++ r.title ++ js " \n      " ++ r.category ++
    js " \n      " ++ r.content ++ js " \n      " ++ kwText r.keywords ++ js "\n    ")

/-- Exact phrase bonus (`server.js` lines 42-44). -/
def phraseBonus (blob ql : JsStr) : Nat :=
  if containsSub blob ql then 100 else 0

/-- Title bonus (`server.js` lines 47-49). -/
def titleBonus (r : Resource) (ql : JsStr) : Nat :=
  if containsSub (jsToLower r.title) ql then 50 else 0

/-- The keyword filter predicate (`server.js` lines 53-55). -/
def keywordMatch (ql : JsStr) (terms : List JsStr) (kw : JsStr) : Bool :=
  containsSub (jsToLower kw) ql || terms.any (fun t => containsSub (jsToLower kw) t)

/-- Keyword component (`server.js` lines 52-58): 30 per matching
keyword; skipped when the `keywords` field is absent. -/
def keywordBonus (r : Resource) (ql : JsStr) (terms : List JsStr) : Nat :=
  match r.keywords with
  | none => 0
  | some ks => 30 * (ks.filter (keywordMatch ql terms)).length

/-- Per-term contribution of the term-frequency loop (`server.js`
lines 61-66): terms of length at most 2 contribute 0 without compiling
a pattern; longer terms compile `new RegExp(term, "g")` (which can
throw) and contribute 5 per match in the blob. -/
def termSummandE (blob term : JsStr) : Except Unit Nat :=
  if 2 < term.length then
    match parsePattern term with
    | Except.error e => Except.error e
    | Except.ok ts => Except.ok (5 * matchCountG ts blob)
  else Except.ok 0

/-- The whole `queryTerms.forEach` loop, summing the contributions and
propagating the first thrown error. -/
def termsComponentE (blob : JsStr) : List JsStr → Except Unit Nat
  | [] => Except.ok 0
  | t :: ts =>
    match termSummandE blob t with
    | Except.error e => Except.error e
    | Except.ok a =>
      match termsComponentE blob ts with
      | Except.error e => Except.error e
      | Except.ok b => Except.ok (a + b)

/-- Category bonus (`server.js` lines 69-71). -/
def categoryBonus (r : Resource) (ql : JsStr) : Nat :=
  if containsSub (jsToLower r.category) ql then 20 else 0

/-- The full per-resource score (`server.js` lines 32-74); fails iff
the term loop throws. -/
def scoreResourceE (ql : JsStr) (terms : List JsStr) (r : Resource) : Except Unit Nat :=
  match termsComponentE (searchableText r) terms with
  | Except.error e => Except.error e
  | Except.ok t =>
    Except.ok (phraseBonus (searchableText r) ql + titleBonus r ql +
      keywordBonus r ql terms + t + categoryBonus r ql)

/-- Model of `query.toLowerCase().trim()` (`server.js` line 28). -/
def queryLowerOf (q : JsStr) : JsStr := jsTrim (jsToLower q)

/-- Model of `queryLower.split(/\s+/).filter(term => term.length > 0)`
(`server.js` line 29). -/
def queryTermsOf (q : JsStr) : List JsStr := splitWs (queryLowerOf q)

/-- The score of one resource as a function of the raw query. -/
def resourceScoreE (q : JsStr) (r : Resource) : Except Unit Nat :=
  scoreResourceE (queryLowerOf q) (queryTermsOf q) r

/-- The `.map(resource => ({resource, score}))` pass (`server.js`
lines 32-74) over the whole collection, propagating a thrown error. -/
def scoreAllE (ql : JsStr) (terms : List JsStr) : List Resource → Except Unit (List (Resource × Nat))
  | [] => Except.ok []
  | r :: rs =>
    match scoreResourceE ql terms r with
    | Except.error e => Except.error e
    | Except.ok n =>
      match scoreAllE ql terms rs with
      | Except.error e => Except.error e
      | Except.ok rest => Except.ok ((r, n) :: rest)

/-- Stable insertion into a list sorted by descending score: the new
element goes before the first element whose score does not exceed it. -/
def insertDesc (x : Resource × Nat) : List (Resource × Nat) → List (Resource × Nat)
  | [] => [x]
  | y :: ys => if y.2 ≤ x.2 then x :: y :: ys else y :: insertDesc x ys

/-- Stable sort by descending score, modelling
`.sort((a, b) => b.score - a.score)` (`server.js` line 79): stable
sorts under the same total preorder agree, so this insertion sort
computes exactly the ECMAScript (stable) sort result. -/
def sortByScoreDesc : List (Resource × Nat) → List (Resource × Nat)
  | [] => []
  | x :: xs => insertDesc x (sortByScoreDesc xs)

/-- The search function (`server.js` lines 23-81).  `Except.error ()`
models an exception thrown out of the function; the `resources`
collection is the parsed `ahaResources.resources` array. -/
def searchAhaResources (query : JsStr) (resources : List Resource) : Except Unit (List Resource) :=
  if (jsTrim query).length = 0 then Except.ok []
  else
    match scoreAllE (queryLowerOf query) (queryTermsOf query) resources with
    | Except.error e => Except.error e
    | Except.ok scored =>
      Except.ok ((sortByScoreDesc (scored.filter (fun p => 0 < p.2))).map (fun p => p.1))

/-- The score a successful search run assigns to a resource (default 0
when the score computation would throw). -/
def scoreFun (q : JsStr) (r : Resource) : Nat :=
  match resourceScoreE q r with
  | Except.error _ => 0
  | Except.ok n => n

/-- Modelled from the spec: the number of non-overlapping occurrences
of `term` as a literal substring of `blob`, scanning left to right —
the counting the specification prescribes for the term-frequency
component ("literal substring counting, not pattern-interpretation").
This is the spec-side counting function, kept separate from the
code-side `matchCountG` for comparison. -/
def specLiteralCount (term : JsStr) : Nat → JsStr → Nat
  | 0, _ => 0
  | _ + 1, [] => 0
  | fuel + 1, c :: cs =>
    if leadsList term (c :: cs) then 1 + specLiteralCount term fuel (List.drop (term.length - 1) cs)
    else specLiteralCount term fuel cs

/-- Entry point of the spec-side literal count. -/
def specLiteralCountTop (blob term : JsStr) : Nat :=
  if term.isEmpty then blob.length + 1 else specLiteralCount term blob.length blob

/-- The concrete document of the specification's worked scenario. -/
def heartDoc : Resource :=
  { id := js "1", title := js "Heart Attack Symptoms", category := js "Symptoms",
    content := js "Chest pain, shortness of breath...",
    keywords := some [js "chest pain", js "heart attack"], url := none }

/-- A minimal well-formed document (no keywords, no url). -/
def rA : Resource :=
  { id := js "2", title := js "x", category := js "y", content := js "abc",
    keywords := none, url := none }

/-- A document whose content repeats a term, used to exercise
duplicate-term scoring. -/
def rC9 : Resource :=
  { id := js "3", title := js "x", category := js "y",
    content := js "heart heart heart", keywords := none, url := none }

/-- A document whose content contains a whole multi-word query. -/
def c6A : Resource :=
  { id := js "4", title := js "aa", category := js "bb",
    content := js "chest pain ow relief", keywords := none, url := none }

/-- A document whose only link to the query `"chest pain ow"` is the
short term `"ow"` occurring inside its sole keyword. -/
def c6B : Resource :=
  { id := js "5", title := js "zz", category := js "qq", content := js "vv",
    keywords := some [js "low"], url := none }

/-- A document with several keywords matched by a two-character term. -/
def rKw : Resource :=
  { id := js "6", title := js "zz", category := js "qq", content := js "vv",
    keywords := some [js "high", js "hit", js "flow"], url := none }

/-! ### Substring theory for the `includes` model -/

theorem leadsList_iff_exists (n : JsStr) :
    ∀ h : JsStr, leadsList n h = true ↔ ∃ v, h = n ++ v := by
  induction n with
  | nil =>
    intro h
    simp [leadsList]
  | cons a as ih =>
    intro h
    cases h with
    | nil =>
      simp [leadsList]
    | cons b bs =>
      simp only [leadsList, Bool.and_eq_true, beq_iff_eq, ih bs]
      constructor
      · rintro ⟨rfl, v, rfl⟩
        exact ⟨v, rfl⟩
      · rintro ⟨v, hv⟩
        cases hv
        exact ⟨rfl, v, rfl⟩

theorem containsSub_iff_exists (n : JsStr) :
    ∀ h : JsStr, containsSub h n = true ↔ ∃ u v, h = u ++ n ++ v := by
  intro h
  induction h with
  | nil =>
    simp only [containsSub, List.isEmpty_iff]
    constructor
    · rintro rfl
      exact ⟨[], [], rfl⟩
    · rintro ⟨u, v, hv⟩
      cases u with
      | nil =>
        cases n with
        | nil => rfl
        | cons x xs => simp at hv
      | cons x xs => simp at hv
  | cons c t ih =>
    simp only [containsSub, Bool.or_eq_true, leadsList_iff_exists, ih]
    constructor
    · rintro (⟨v, hv⟩ | ⟨u, v, rfl⟩)
      · exact ⟨[], v, by simp [hv]⟩
      · exact ⟨c :: u, v, rfl⟩
    · rintro ⟨u, v, hv⟩
      cases u with
      | nil =>
        exact Or.inl ⟨v, by simpa using hv⟩
      | cons x xs =>
        right
        refine ⟨xs, v, ?_⟩
        simp only [List.cons_append] at hv
        exact (List.cons.inj hv).2

theorem containsSub_nil_needle (h : JsStr) : containsSub h [] = true := by
  cases h with
  | nil => rfl
  | cons c t => simp [containsSub, leadsList]

theorem containsSub_of_part (pre mid post x : JsStr)
    (h : containsSub mid x = true) :
    containsSub (pre ++ mid ++ post) x = true := by
  rcases (containsSub_iff_exists x mid).1 h with ⟨u, v, rfl⟩
  exact (containsSub_iff_exists x _).2 ⟨pre ++ u, v ++ post, by simp⟩

theorem searchableText_decomp (r : Resource) :
    searchableText r =
      js "\n      " ++ jsToLower r.title ++ js " \n      " ++ jsToLower r.category ++
      js " \n      " ++ jsToLower r.content ++ js " \n      " ++
      jsToLower (kwText r.keywords) ++ js "\n    " := by
  have h1 : jsToLower (js "\n      ") = js "\n      " := by decide
  have h2 : jsToLower (js " \n      ") = js " \n      " := by decide
  have h3 : jsToLower (js "\n    ") = js "\n    " := by decide
  simp only [searchableText, jsToLower, List.map_append] at *
  rw [h1, h2, h3]

theorem containsSub_blob_of_title (r : Resource) (x : JsStr)
    (h : containsSub (jsToLower r.title) x = true) :
    containsSub (searchableText r) x = true := by
  rw [searchableText_decomp]
  have := containsSub_of_part (js "\n      ") (jsToLower r.title)
    (js " \n      " ++ jsToLower r.category ++ js " \n      " ++ jsToLower r.content ++
      js " \n      " ++ jsToLower (kwText r.keywords) ++ js "\n    ") x h
  simpa [List.append_assoc] using this

theorem containsSub_blob_of_category (r : Resource) (x : JsStr)
    (h : containsSub (jsToLower r.category) x = true) :
    containsSub (searchableText r) x = true := by
  rw [searchableText_decomp]
  have := containsSub_of_part (js "\n      " ++ jsToLower r.title ++ js " \n      ")
    (jsToLower r.category)
    (js " \n      " ++ jsToLower r.content ++ js " \n      " ++
      jsToLower (kwText r.keywords) ++ js "\n    ") x h
  simpa [List.append_assoc] using this

theorem containsSub_blob_of_content (r : Resource) (x : JsStr)
    (h : containsSub (jsToLower r.content) x = true) :
    containsSub (searchableText r) x = true := by
  rw [searchableText_decomp]
  have := containsSub_of_part
    (js "\n      " ++ jsToLower r.title ++ js " \n      " ++ jsToLower r.category ++ js " \n      ")
    (jsToLower r.content)
    (js " \n      " ++ jsToLower (kwText r.keywords) ++ js "\n    ") x h
  simpa [List.append_assoc] using this

/-! ### Whitespace separators confine whitespace-free substrings -/

theorem leadsList_stripFront (w b : JsStr) (hw : ∀ c ∈ w, jsIsWs c = true)
    (hne : w ≠ []) :
    ∀ (n : JsStr), (∀ c ∈ n, jsIsWs c = false) →
      ∀ (a : JsStr), leadsList n (a ++ (w ++ b)) = true → leadsList n a = true := by
  intro n
  induction n with
  | nil => intro _ a _; simp [leadsList]
  | cons x n' ih =>
    intro hn a h
    cases a with
    | nil =>
      exfalso
      cases w with
      | nil => exact hne rfl
      | cons wc w' =>
        simp only [List.nil_append, List.cons_append, leadsList,
          Bool.and_eq_true, beq_iff_eq] at h
        have hx : jsIsWs x = false := hn x (by simp)
        have hwc : jsIsWs wc = true := hw wc (by simp)
        rw [h.1, hwc] at hx
        exact Bool.noConfusion hx
    | cons ac a' =>
      simp only [List.cons_append, leadsList, Bool.and_eq_true] at h ⊢
      exact ⟨h.1, ih (fun c hc => hn c (by simp [hc])) a' h.2⟩

theorem leadsList_stripBack (w : JsStr) (hw : ∀ c ∈ w, jsIsWs c = true) :
    ∀ (n : JsStr), (∀ c ∈ n, jsIsWs c = false) →
      ∀ (b : JsStr), leadsList n (b ++ w) = true → leadsList n b = true := by
  intro n
  induction n with
  | nil => intro _ b _; simp [leadsList]
  | cons x n' ih =>
    intro hn b h
    cases b with
    | nil =>
      exfalso
      cases w with
      | nil => simp [leadsList] at h
      | cons wc w' =>
        simp only [List.nil_append, leadsList, Bool.and_eq_true, beq_iff_eq] at h
        have hx : jsIsWs x = false := hn x (by simp)
        have hwc : jsIsWs wc = true := hw wc (by simp)
        rw [h.1, hwc] at hx
        exact Bool.noConfusion hx
    | cons bc b' =>
      simp only [List.cons_append, leadsList, Bool.and_eq_true] at h ⊢
      exact ⟨h.1, ih (fun c hc => hn c (by simp [hc])) b' h.2⟩

theorem containsSub_ws_needle_nil (w : JsStr) (hw : ∀ c ∈ w, jsIsWs c = true)
    (n : JsStr) (hn : ∀ c ∈ n, jsIsWs c = false)
    (h : containsSub w n = true) : n = [] := by
  induction w with
  | nil =>
    simpa [containsSub, List.isEmpty_iff] using h
  | cons wc w' ih =>
    simp only [containsSub, Bool.or_eq_true] at h
    rcases h with h | h
    · cases n with
      | nil => rfl
      | cons x n' =>
        exfalso
        simp only [leadsList, Bool.and_eq_true, beq_iff_eq] at h
        have hx : jsIsWs x = false := hn x (by simp)
        have hwc : jsIsWs wc = true := hw wc (by simp)
        rw [h.1, hwc] at hx
        exact Bool.noConfusion hx
    · exact ih (fun c hc => hw c (by simp [hc])) h

theorem containsSub_stripFront (w b n : JsStr) (hw : ∀ c ∈ w, jsIsWs c = true)
    (hn : ∀ c ∈ n, jsIsWs c = false)
    (h : containsSub (w ++ b) n = true) : containsSub b n = true := by
  induction w with
  | nil => simpa using h
  | cons wc w' ih =>
    simp only [List.cons_append, containsSub, Bool.or_eq_true] at h
    rcases h with h | h
    · cases n with
      | nil => exact containsSub_nil_needle b
      | cons x n' =>
        exfalso
        simp only [leadsList, Bool.and_eq_true, beq_iff_eq] at h
        have hx : jsIsWs x = false := hn x (by simp)
        have hwc : jsIsWs wc = true := hw wc (by simp)
        rw [h.1, hwc] at hx
        exact Bool.noConfusion hx
    · exact ih (fun c hc => hw c (by simp [hc])) h

theorem containsSub_stripBack (w n : JsStr) (hw : ∀ c ∈ w, jsIsWs c = true)
    (hn : ∀ c ∈ n, jsIsWs c = false) :
    ∀ (b : JsStr), containsSub (b ++ w) n = true → containsSub b n = true := by
  intro b
  induction b with
  | nil =>
    intro h
    have := containsSub_ws_needle_nil w hw n hn (by simpa using h)
    rw [this]
    exact containsSub_nil_needle []
  | cons bc b' ih =>
    intro h
    simp only [List.cons_append, containsSub, Bool.or_eq_true] at h ⊢
    rcases h with h | h
    · left
      have := leadsList_stripBack w hw n hn (bc :: b') (by simpa using h)
      exact this
    · exact Or.inr (ih h)

theorem containsSub_splitMid (w n : JsStr) (hw : ∀ c ∈ w, jsIsWs c = true)
    (hne : w ≠ []) (hn : ∀ c ∈ n, jsIsWs c = false) :
    ∀ (a b : JsStr), containsSub (a ++ (w ++ b)) n = true →
      containsSub a n = true ∨ containsSub b n = true := by
  intro a
  induction a with
  | nil =>
    intro b h
    exact Or.inr (containsSub_stripFront w b n hw hn (by simpa using h))
  | cons ac a' ih =>
    intro b h
    simp only [List.cons_append, containsSub, Bool.or_eq_true] at h ⊢
    rcases h with h | h
    · left
      left
      exact leadsList_stripFront w b hw hne n hn (ac :: a') (by simpa using h)
    · rcases ih b h with h' | h'
      · exact Or.inl (Or.inr h')
      · exact Or.inr h'

/-! ### The stable descending sort -/

theorem insertDesc_perm (x : Resource × Nat) (l : List (Resource × Nat)) :
    List.Perm (insertDesc x l) (x :: l) := by
  induction l with
  | nil => exact List.Perm.refl _
  | cons y ys ih =>
    by_cases h : y.2 ≤ x.2
    · simp [insertDesc, h]
    · simp only [insertDesc, if_neg h]
      exact (ih.cons y).trans (List.Perm.swap x y ys)

theorem sortByScoreDesc_perm (l : List (Resource × Nat)) :
    List.Perm (sortByScoreDesc l) l := by
  induction l with
  | nil => exact List.Perm.refl _
  | cons x xs ih =>
    exact (insertDesc_perm x (sortByScoreDesc xs)).trans (ih.cons x)

theorem insertDesc_pairwise (x : Resource × Nat) (l : List (Resource × Nat))
    (h : l.Pairwise (fun a b => b.2 ≤ a.2)) :
    (insertDesc x l).Pairwise (fun a b => b.2 ≤ a.2) := by
  induction l with
  | nil => simp [insertDesc]
  | cons y ys ih =>
    rw [List.pairwise_cons] at h
    by_cases hyx : y.2 ≤ x.2
    · simp only [insertDesc, if_pos hyx, List.pairwise_cons]
      refine ⟨?_, ?_⟩
      · intro z hz
        rcases List.mem_cons.1 hz with rfl | hz'
        · exact hyx
        · exact Nat.le_trans (h.1 z hz') hyx
      · exact h
    · simp only [insertDesc, if_neg hyx, List.pairwise_cons]
      refine ⟨?_, ih h.2⟩
      intro z hz
      have hz' := (insertDesc_perm x ys).mem_iff.1 hz
      rcases List.mem_cons.1 hz' with rfl | hz''
      · omega
      · exact h.1 z hz''

theorem sortByScoreDesc_pairwise (l : List (Resource × Nat)) :
    (sortByScoreDesc l).Pairwise (fun a b => b.2 ≤ a.2) := by
  induction l with
  | nil => simp [sortByScoreDesc]
  | cons x xs ih => exact insertDesc_pairwise x (sortByScoreDesc xs) ih

theorem insertDesc_filter_score (x : Resource × Nat) (l : List (Resource × Nat)) (s : Nat) :
    (insertDesc x l).filter (fun p => p.2 == s) =
      if x.2 == s then x :: l.filter (fun p => p.2 == s)
      else l.filter (fun p => p.2 == s) := by
  induction l with
  | nil =>
    by_cases hx : x.2 == s
    · simp [insertDesc, List.filter_cons, hx]
    · simp [insertDesc, List.filter_cons, hx]
  | cons y ys ih =>
    by_cases hyx : y.2 ≤ x.2
    · by_cases hx : x.2 == s
      · simp [insertDesc, if_pos hyx, List.filter_cons, hx]
      · simp [insertDesc, if_pos hyx, List.filter_cons, hx]
    · by_cases hx : x.2 == s
      · have hy : (y.2 == s) = false := by
          have hxs : x.2 = s := by simpa using hx
          have hne : ¬ y.2 = s := by omega
          simpa using hne
        simp [insertDesc, if_neg hyx, List.filter_cons, hy, ih, hx]
      · simp [insertDesc, if_neg hyx, List.filter_cons, ih, hx]

theorem sortByScoreDesc_filter_score (l : List (Resource × Nat)) (s : Nat) :
    (sortByScoreDesc l).filter (fun p => p.2 == s) = l.filter (fun p => p.2 == s) := by
  induction l with
  | nil => rfl
  | cons x xs ih =>
    by_cases hx : x.2 == s
    · simp [sortByScoreDesc, insertDesc_filter_score, hx, List.filter_cons, ih]
    · simp [sortByScoreDesc, insertDesc_filter_score, hx, List.filter_cons, ih]

/-! ### Characterizing a successful search run -/

theorem scoreAllE_ok (ql : JsStr) (terms : List JsStr) :
    ∀ (rs : List Resource) (l : List (Resource × Nat)),
      scoreAllE ql terms rs = Except.ok l →
      l.map Prod.fst = rs ∧ ∀ p ∈ l, scoreResourceE ql terms p.1 = Except.ok p.2 := by
  intro rs
  induction rs with
  | nil =>
    intro l h
    simp only [scoreAllE] at h
    cases h
    simp
  | cons r rs' ih =>
    intro l h
    simp only [scoreAllE] at h
    rcases hsc : scoreResourceE ql terms r with e | n
    · rw [hsc] at h; cases h
    · rw [hsc] at h
      rcases hrest : scoreAllE ql terms rs' with e | rest
      · rw [hrest] at h; cases h
      · rw [hrest] at h
        cases h
        rcases ih rest hrest with ⟨hmap, hall⟩
        refine ⟨by simp [hmap], ?_⟩
        intro p hp
        rcases List.mem_cons.1 hp with rfl | hp'
        · exact hsc
        · exact hall p hp'

theorem search_ok_inv (q : JsStr) (docs out : List Resource)
    (hg : (jsTrim q).length ≠ 0)
    (h : searchAhaResources q docs = Except.ok out) :
    ∃ scored, scoreAllE (queryLowerOf q) (queryTermsOf q) docs = Except.ok scored ∧
      out = (sortByScoreDesc (scored.filter (fun p => 0 < p.2))).map (fun p => p.1) := by
  rw [searchAhaResources, if_neg hg] at h
  rcases hs : scoreAllE (queryLowerOf q) (queryTermsOf q) docs with e | scored
  · rw [hs] at h; cases h
  · rw [hs] at h
    cases h
    exact ⟨scored, rfl, rfl⟩

/-- Everything a successful, non-trivial search run guarantees: each
document's score computes, the output is exactly the positive-scoring
documents, it is sorted by descending score, and ties keep collection
order (the score-class filter equality). -/
theorem search_spec (q : JsStr) (docs out : List Resource)
    (hg : (jsTrim q).length ≠ 0)
    (h : searchAhaResources q docs = Except.ok out) :
    (∀ r ∈ docs, resourceScoreE q r = Except.ok (scoreFun q r)) ∧
    (∀ r, r ∈ out ↔ (r ∈ docs ∧ 0 < scoreFun q r)) ∧
    out.Pairwise (fun a b => scoreFun q b ≤ scoreFun q a) ∧
    (∀ s : Nat, out.filter (fun r => scoreFun q r == s) =
      docs.filter (fun r => scoreFun q r == s && decide (0 < s))) := by
  rcases search_ok_inv q docs out hg h with ⟨scored, hs, hout⟩
  rcases scoreAllE_ok (queryLowerOf q) (queryTermsOf q) docs scored hs with ⟨hmap, hall⟩
  have hall' : ∀ p ∈ scored, resourceScoreE q p.1 = Except.ok p.2 := hall
  have hscore : ∀ p ∈ scored, scoreFun q p.1 = p.2 := by
    intro p hp
    rw [scoreFun, hall' p hp]
  have hdocs_ok : ∀ r ∈ docs, resourceScoreE q r = Except.ok (scoreFun q r) := by
    intro r hr
    rw [← hmap] at hr
    rcases List.mem_map.1 hr with ⟨p, hp, rfl⟩
    rw [hscore p hp]
    exact hall' p hp
  have hmemM : ∀ p, p ∈ sortByScoreDesc (scored.filter (fun p => 0 < p.2)) ↔
      (p ∈ scored ∧ 0 < p.2) := by
    intro p
    rw [(sortByScoreDesc_perm _).mem_iff, List.mem_filter]
    simp
  refine ⟨hdocs_ok, ?_, ?_, ?_⟩
  · intro r
    rw [hout]
    constructor
    · intro hr
      rcases List.mem_map.1 hr with ⟨p, hp, rfl⟩
      rcases (hmemM p).1 hp with ⟨hpsc, hppos⟩
      refine ⟨?_, ?_⟩
      · rw [← hmap]; exact List.mem_map.2 ⟨p, hpsc, rfl⟩
      · rw [hscore p hpsc]; exact hppos
    · rintro ⟨hr, hpos⟩
      rw [← hmap] at hr
      rcases List.mem_map.1 hr with ⟨p, hp, rfl⟩
      rw [hscore p hp] at hpos
      exact List.mem_map.2 ⟨p, (hmemM p).2 ⟨hp, hpos⟩, rfl⟩
  · rw [hout]
    rw [List.pairwise_map]
    have hsorted := sortByScoreDesc_pairwise (scored.filter (fun p => 0 < p.2))
    refine hsorted.imp_of_mem ?_
    intro a b ha hb hab
    rw [hscore a ((hmemM a).1 ha).1, hscore b ((hmemM b).1 hb).1]
    exact hab
  · intro s
    rw [hout]
    rw [List.filter_map]
    have hcongr1 : (sortByScoreDesc (scored.filter (fun p => 0 < p.2))).filter
        ((fun r => scoreFun q r == s) ∘ (fun p => p.1)) =
        (sortByScoreDesc (scored.filter (fun p => 0 < p.2))).filter (fun p => p.2 == s) := by
      apply List.filter_congr
      intro p hp
      simp only [Function.comp]
      rw [hscore p ((hmemM p).1 hp).1]
    rw [hcongr1, sortByScoreDesc_filter_score, List.filter_filter]
    have hcongr2 : scored.filter (fun a => (a.2 == s) && decide (0 < a.2)) =
        scored.filter (fun a => (scoreFun q a.1 == s) && decide (0 < s)) := by
      apply List.filter_congr
      intro p hp
      rw [hscore p hp]
      by_cases hps : p.2 = s
      · rw [hps]
      · have : (p.2 == s) = false := beq_eq_false_iff_ne.2 hps
        rw [this]
        simp
    rw [hcongr2, ← hmap, List.filter_map]
    rfl

/-! ### Score decomposition and trim lemmas -/

theorem termsComponentE_ok_zero (blob : JsStr) :
    ∀ ts : List JsStr, (∀ u ∈ ts, termSummandE blob u = Except.ok 0) →
      termsComponentE blob ts = Except.ok 0 := by
  intro ts
  induction ts with
  | nil => intro _; rfl
  | cons t ts' ih =>
    intro h
    have ht := h t (by simp)
    have hts := ih (fun u hu => h u (by simp [hu]))
    simp [termsComponentE, ht, hts]

theorem scoreResourceE_eq (ql : JsStr) (terms : List JsStr) (r : Resource) (t : Nat)
    (h : termsComponentE (searchableText r) terms = Except.ok t) :
    scoreResourceE ql terms r =
      Except.ok (phraseBonus (searchableText r) ql + titleBonus r ql +
        keywordBonus r ql terms + t + categoryBonus r ql) := by
  simp [scoreResourceE, h]

theorem scoreResourceE_ok_inv (ql : JsStr) (terms : List JsStr) (r : Resource) (n : Nat)
    (h : scoreResourceE ql terms r = Except.ok n) :
    ∃ t, termsComponentE (searchableText r) terms = Except.ok t ∧
      n = phraseBonus (searchableText r) ql + titleBonus r ql +
        keywordBonus r ql terms + t + categoryBonus r ql := by
  rcases ht : termsComponentE (searchableText r) terms with e | t
  · rw [scoreResourceE, ht] at h; cases h
  · rw [scoreResourceE, ht] at h
    cases h
    exact ⟨t, rfl, rfl⟩

theorem jsTrim_eq_nil_iff (s : JsStr) :
    jsTrim s = [] ↔ ∀ c ∈ s, jsIsWs c = true := by
  rw [jsTrim]
  rw [List.reverse_eq_nil_iff, List.dropWhile_eq_nil_iff]
  constructor
  · intro h c hc
    have hsplit := List.takeWhile_append_dropWhile (p := jsIsWs) (l := s)
    rw [← hsplit] at hc
    rcases List.mem_append.1 hc with hc' | hc'
    · exact List.mem_takeWhile_imp hc'
    · exact h c (List.mem_reverse.2 hc')
  · intro h c hc
    have hc' : c ∈ s.dropWhile jsIsWs := List.mem_reverse.1 hc
    have : c ∈ s := by
      have hsub := List.dropWhile_sublist (p := jsIsWs) (l := s)
      exact hsub.mem hc'
    exact h c this

theorem toLower_ws (c : Char) (h : jsIsWs c = true) : Char.toLower c = c := by
  simp only [jsIsWs, Bool.or_eq_true, beq_iff_eq] at h
  rcases h with ((((h | h) | h) | h) | h) | h <;> subst h <;> decide

theorem jsTrim_toLower_nil (q : JsStr) (h : jsTrim q = []) :
    jsTrim (jsToLower q) = [] := by
  rw [jsTrim_eq_nil_iff] at h ⊢
  intro c hc
  rcases List.mem_map.1 hc with ⟨d, hd, rfl⟩
  rw [toLower_ws d (h d hd)]
  exact h d hd

theorem queryLowerOf_nil_of_trim (q : JsStr) (h : (jsTrim q).length = 0) :
    queryLowerOf q = [] := by
  rw [queryLowerOf]
  exact jsTrim_toLower_nil q (List.length_eq_zero.1 h)

/-! ### Index order in a descending-sorted output -/

theorem indexOf_lt_of_score (out : List Resource) (sc : Resource → Nat)
    (hp : out.Pairwise (fun a b => sc b ≤ sc a))
    (A B : Resource) (hA : A ∈ out) (hB : B ∈ out) (hlt : sc B < sc A) :
    out.indexOf A < out.indexOf B := by
  have hiA : out.indexOf A < out.length := List.indexOf_lt_length.2 hA
  have hiB : out.indexOf B < out.length := List.indexOf_lt_length.2 hB
  have hgA : out[out.indexOf A] = A := List.getElem_indexOf hiA
  have hgB : out[out.indexOf B] = B := List.getElem_indexOf hiB
  have hAB : A ≠ B := by
    intro hEq
    rw [hEq] at hlt
    omega
  have hne : out.indexOf A ≠ out.indexOf B := by
    intro hEq
    apply hAB
    have h1 : out[List.indexOf A out]? = some A := by
      rw [List.getElem?_eq_getElem hiA, hgA]
    have h2 : out[List.indexOf B out]? = some B := by
      rw [List.getElem?_eq_getElem hiB, hgB]
    rw [hEq, h2] at h1
    exact (Option.some.inj h1).symm
  rcases Nat.lt_or_ge (out.indexOf A) (out.indexOf B) with hl | hge
  · exact hl
  · exfalso
    have hgt : out.indexOf B < out.indexOf A := by omega
    have := (List.pairwise_iff_getElem.1 hp) (out.indexOf B) (out.indexOf A) hiB hiA hgt
    rw [hgA, hgB] at this
    omega

/-! ### The claims -/

/-- Claim C1 (refuted by the code, confirming a code bug): the search
function is specified as total over every query string, including
strings with regex metacharacters such as `(`.  The code instead
builds `new RegExp(term, "g")` from each raw term of length at least
3, so the query `"((("` (an invalid pattern: unterminated groups)
throws out of `searchAhaResources` on any non-empty collection.  This
theorem evaluates the embedding at that failing input. -/
theorem claim_C1_regex_throws :
    searchAhaResources (js "(((") [rA] = Except.error () := by decide

/-- Claim C2 (amended): for the specification's one-document scenario,
the query `"heart attack"` scores the document at exactly 200 — not
the claimed 180: phrase +100, title +50, keyword +30, plus the
term-frequency component the spec's arithmetic omitted (+20: the terms
`heart` and `attack` each occur twice in the searchable blob, at 5 per
occurrence) — and the document is returned as the sole result. -/
theorem claim_C2_score_200 :
    resourceScoreE (js "heart attack") heartDoc = Except.ok 200 ∧
    searchAhaResources (js "heart attack") [heartDoc] = Except.ok [heartDoc] :=
  ⟨by decide, by decide⟩

/-- Claim C2, counterexample to the stated score: the computed
relevance score of the scenario document is not 180. -/
theorem claim_C2_not_180 :
    resourceScoreE (js "heart attack") heartDoc ≠ Except.ok 180 := by decide

/-- Claim C3 (refuted by the code, confirming a code bug): the spec
requires the term-frequency component to count literal substring
occurrences, never interpreting the term as a pattern.  The code
passes the raw term to `new RegExp`, so the term `"a.c"` is
pattern-interpreted: against the document with content `"abc"` the
code counts one match (score 5 per occurrence) and returns the
document, although `"a.c"` occurs 0 times as a literal substring of
the searchable blob (`specLiteralCountTop`, the spec-side literal
counter). -/
theorem claim_C3_pattern_interpreted :
    resourceScoreE (js "a.c") rA = Except.ok 5 ∧
    searchAhaResources (js "a.c") [rA] = Except.ok [rA] ∧
    specLiteralCountTop (searchableText rA) (js "a.c") = 0 :=
  ⟨by decide, by decide, by decide⟩

/-- Claim C4 (amended): for every query that is non-empty after
trimming and every collection on which search returns (rather than
throws), every document's score computes to `scoreFun`, the output
contains exactly the input documents of strictly positive score, it is
ordered by descending score, and equal-score documents appear exactly
as they do in the input collection (the score-class filter equality,
the standard statement of sort stability).  The restriction to
non-whitespace queries is forced by the empty-query short-circuit:
see the counterexample. -/
theorem claim_C4_filter_sort_stable (q : JsStr) (docs out : List Resource)
    (hg : (jsTrim q).length ≠ 0)
    (h : searchAhaResources q docs = Except.ok out) :
    (∀ r ∈ docs, resourceScoreE q r = Except.ok (scoreFun q r)) ∧
    (∀ r, r ∈ out ↔ (r ∈ docs ∧ 0 < scoreFun q r)) ∧
    out.Pairwise (fun a b => scoreFun q b ≤ scoreFun q a) ∧
    (∀ s : Nat, out.filter (fun r => scoreFun q r == s) =
      docs.filter (fun r => scoreFun q r == s && decide (0 < s))) :=
  search_spec q docs out hg h

/-- Claim C4, counterexample to the unrestricted statement: on the
all-whitespace query `" "` search returns the empty sequence without
scoring, yet the score the algorithm would compute for the document is
170 (the empty normalized query is a substring of everything), so the
output does not contain every positive-scoring document. -/
theorem claim_C4_empty_query_cex :
    searchAhaResources (js " ") [rA] = Except.ok [] ∧
    resourceScoreE (js " ") rA = Except.ok 170 ∧
    rA ∉ ([] : List Resource) :=
  ⟨by decide, by decide, by simp⟩

theorem claim_C4_witness :
    ((jsTrim (js "heart")).length ≠ 0 ∧
      searchAhaResources (js "heart") [heartDoc, rA] = Except.ok [heartDoc]) ∧
    ((∀ r ∈ [heartDoc, rA],
        resourceScoreE (js "heart") r = Except.ok (scoreFun (js "heart") r)) ∧
      (∀ r, r ∈ [heartDoc] ↔ (r ∈ [heartDoc, rA] ∧ 0 < scoreFun (js "heart") r)) ∧
      List.Pairwise (fun a b => scoreFun (js "heart") b ≤ scoreFun (js "heart") a) [heartDoc] ∧
      (∀ s : Nat, List.filter (fun r => scoreFun (js "heart") r == s) [heartDoc] =
        List.filter (fun r => scoreFun (js "heart") r == s && decide (0 < s)) [heartDoc, rA])) :=
  ⟨⟨by decide, by decide⟩,
    claim_C4_filter_sort_stable (js "heart") [heartDoc, rA] [heartDoc] (by decide) (by decide)⟩

/-- Claim C5: a query that is empty or whitespace-only short-circuits:
search returns the empty sequence as a normal result, before any
document is scored. -/
theorem claim_C5_empty_query (q : JsStr) (docs : List Resource)
    (h : (jsTrim q).length = 0) :
    searchAhaResources q docs = Except.ok [] := by
  rw [searchAhaResources, if_pos h]

theorem claim_C5_witness :
    (jsTrim (js "   ")).length = 0 ∧
    searchAhaResources (js "   ") [rA] = Except.ok [] :=
  ⟨by decide, claim_C5_empty_query (js "   ") [rA] (by decide)⟩

/-- Claim C7: every document in a returned output is an element of the
input collection.  (The embedding is a pure function: the input
collection is never reordered or mutated, which in this model holds by
construction.) -/
theorem claim_C7_output_from_input (q : JsStr) (docs out : List Resource)
    (h : searchAhaResources q docs = Except.ok out) :
    ∀ r ∈ out, r ∈ docs := by
  by_cases hg : (jsTrim q).length = 0
  · rw [searchAhaResources, if_pos hg] at h
    cases h
    intro r hr
    simp at hr
  · intro r hr
    exact (((search_spec q docs out hg h).2.1 r).1 hr).1

theorem claim_C7_witness :
    searchAhaResources (js "heart") [heartDoc, rA] = Except.ok [heartDoc] ∧
    ∀ r ∈ [heartDoc], r ∈ [heartDoc, rA] :=
  ⟨by decide,
    claim_C7_output_from_input (js "heart") [heartDoc, rA] [heartDoc] (by decide)⟩

/-- Claim C8: the keyword component applies no minimum term length.
If a term `t` of length at most 2 is the reason keywords match (each
keyword matches the filter exactly when it contains `t`), the keyword
component is 30 per such keyword, while the very same term's summand
in the term-frequency loop is 0. -/
theorem claim_C8_keyword_no_floor (q : JsStr) (r : Resource) (kws : List JsStr) (t : JsStr)
    (hk : r.keywords = some kws)
    (ht : t ∈ queryTermsOf q) (hts : t.length ≤ 2)
    (hall : ∀ kw ∈ kws, keywordMatch (queryLowerOf q) (queryTermsOf q) kw =
      containsSub (jsToLower kw) t) :
    keywordBonus r (queryLowerOf q) (queryTermsOf q) =
      30 * kws.countP (fun kw => containsSub (jsToLower kw) t) ∧
    termSummandE (searchableText r) t = Except.ok 0 := by
  constructor
  · simp only [keywordBonus, hk]
    rw [List.filter_congr hall, List.countP_eq_length_filter]
  · rw [termSummandE, if_neg (by omega)]

theorem claim_C8_witness :
    (rKw.keywords = some [js "high", js "hit", js "flow"] ∧
      js "hi" ∈ queryTermsOf (js "hi") ∧ (js "hi").length ≤ 2 ∧
      (∀ kw ∈ [js "high", js "hit", js "flow"],
        keywordMatch (queryLowerOf (js "hi")) (queryTermsOf (js "hi")) kw =
          containsSub (jsToLower kw) (js "hi"))) ∧
    (keywordBonus rKw (queryLowerOf (js "hi")) (queryTermsOf (js "hi")) =
      30 * List.countP (fun kw => containsSub (jsToLower kw) (js "hi"))
        [js "high", js "hit", js "flow"] ∧
     termSummandE (searchableText rKw) (js "hi") = Except.ok 0) :=
  ⟨⟨by decide, by decide, by decide, by decide⟩,
    claim_C8_keyword_no_floor (js "hi") rKw [js "high", js "hit", js "flow"] (js "hi")
      (by decide) (by decide) (by decide) (by decide)⟩

theorem termsComponentE_replicate (blob t : JsStr) (ts : List JsStr) (n : Nat) :
    termsComponentE blob (List.replicate (n + 1) t ++ ts) =
      (termSummandE blob t).bind
        (fun a => (termsComponentE blob ts).map (fun b => (n + 1) * a + b)) := by
  induction n with
  | zero =>
    rcases h1 : termSummandE blob t with e | a <;>
      rcases h2 : termsComponentE blob ts with e' | b <;>
      simp [List.replicate, termsComponentE, h1, h2, Except.bind, Except.map]
  | succ n ih =>
    have hstep : List.replicate (n + 1 + 1) t ++ ts = t :: (List.replicate (n + 1) t ++ ts) := by
      rw [List.replicate_succ]
      rfl
    rw [hstep]
    generalize List.replicate (n + 1) t ++ ts = L at ih
    rcases h1 : termSummandE blob t with e | a
    · simp [termsComponentE, h1, Except.bind]
    · rcases h2 : termsComponentE blob ts with e' | b
      · simp only [h1, h2, Except.bind, Except.map] at ih
        simp [termsComponentE, h1, h2, ih, Except.bind, Except.map]
      · simp only [h1, h2, Except.bind, Except.map] at ih
        simp [termsComponentE, h1, h2, ih, Except.bind, Except.map]
        ring

/-- Claim C9: duplicate query terms are not deduplicated.  A term
occurring `n + 1` times among the whitespace-split tokens has its
summand added `n + 1` times to the term-frequency component, and
concretely the queries `"heart"` and `"heart heart"` give the same
document different scores (115 versus 130). -/
theorem claim_C9_duplicates_count :
    (∀ (blob t : JsStr) (ts : List JsStr) (n : Nat),
      termsComponentE blob (List.replicate (n + 1) t ++ ts) =
        (termSummandE blob t).bind
          (fun a => (termsComponentE blob ts).map (fun b => (n + 1) * a + b))) ∧
    resourceScoreE (js "heart") rC9 = Except.ok 115 ∧
    resourceScoreE (js "heart heart") rC9 = Except.ok 130 :=
  ⟨termsComponentE_replicate, by decide, by decide⟩

/-- Claim C6: exact phrase match dominance.  If document `A`'s content
contains the whole normalized query, while document `B` does not
contain it anywhere in its blob, exactly one of `B`'s keywords matches
the keyword filter — via a term `t` of length at most 2 — and no query
term scores in `B`'s blob, then `B` scores exactly 30, `A` scores
strictly more (at least the +100 phrase bonus), and `A` is ranked
before `B` in the returned output. -/
theorem claim_C6_phrase_dominates (q : JsStr) (docs out : List Resource)
    (A B : Resource) (kws : List JsStr) (t : JsStr)
    (h : searchAhaResources q docs = Except.ok out)
    (hAin : A ∈ docs) (hBin : B ∈ docs)
    (hAc : containsSub (jsToLower A.content) (queryLowerOf q) = true)
    (hBb : containsSub (searchableText B) (queryLowerOf q) = false)
    (hk : B.keywords = some kws)
    (ht : t ∈ queryTermsOf q) (hts : t.length ≤ 2)
    (htm : ∃ kw ∈ kws, containsSub (jsToLower kw) t = true)
    (hkc : (kws.filter (keywordMatch (queryLowerOf q) (queryTermsOf q))).length = 1)
    (hBt : ∀ u ∈ queryTermsOf q, termSummandE (searchableText B) u = Except.ok 0) :
    resourceScoreE q B = Except.ok 30 ∧
    (∃ nA, resourceScoreE q A = Except.ok nA ∧ 30 < nA) ∧
    out.indexOf A < out.indexOf B := by
  have hg : (jsTrim q).length ≠ 0 := by
    intro h0
    rw [queryLowerOf_nil_of_trim q h0, containsSub_nil_needle] at hBb
    cases hBb
  have hBterms : termsComponentE (searchableText B) (queryTermsOf q) = Except.ok 0 :=
    termsComponentE_ok_zero _ _ hBt
  have hBphrase : phraseBonus (searchableText B) (queryLowerOf q) = 0 := by
    rw [phraseBonus, if_neg]
    rw [hBb]
    simp
  have hBtitle : titleBonus B (queryLowerOf q) = 0 := by
    rw [titleBonus, if_neg]
    intro hcontra
    rw [containsSub_blob_of_title B _ hcontra] at hBb
    cases hBb
  have hBcat : categoryBonus B (queryLowerOf q) = 0 := by
    rw [categoryBonus, if_neg]
    intro hcontra
    rw [containsSub_blob_of_category B _ hcontra] at hBb
    cases hBb
  have hBkw : keywordBonus B (queryLowerOf q) (queryTermsOf q) = 30 := by
    simp [keywordBonus, hk, hkc]
  have hscoreB : resourceScoreE q B = Except.ok 30 := by
    rw [resourceScoreE, scoreResourceE_eq _ _ _ _ hBterms]
    rw [hBphrase, hBtitle, hBkw, hBcat]
  obtain ⟨hok, hmem, hpair, _hfil⟩ := search_spec q docs out hg h
  have hAok : resourceScoreE q A = Except.ok (scoreFun q A) := hok A hAin
  have hAphrase : phraseBonus (searchableText A) (queryLowerOf q) = 100 := by
    rw [phraseBonus, if_pos (containsSub_blob_of_content A _ hAc)]
  have hA100 : 100 ≤ scoreFun q A := by
    rw [resourceScoreE] at hAok
    rcases scoreResourceE_ok_inv _ _ _ _ hAok with ⟨tA, _, hsum⟩
    rw [hAphrase] at hsum
    omega
  have hsfB : scoreFun q B = 30 := by
    rw [scoreFun, hscoreB]
  have hAout : A ∈ out := (hmem A).2 ⟨hAin, by omega⟩
  have hBout : B ∈ out := (hmem B).2 ⟨hBin, by omega⟩
  refine ⟨hscoreB, ⟨scoreFun q A, hAok, by omega⟩, ?_⟩
  exact indexOf_lt_of_score out (scoreFun q) hpair A B hAout hBout (by omega)

theorem claim_C6_witness :
    (searchAhaResources (js "chest pain ow") [c6B, c6A] = Except.ok [c6A, c6B] ∧
      c6A ∈ [c6B, c6A] ∧ c6B ∈ [c6B, c6A] ∧
      containsSub (jsToLower c6A.content) (queryLowerOf (js "chest pain ow")) = true ∧
      containsSub (searchableText c6B) (queryLowerOf (js "chest pain ow")) = false ∧
      c6B.keywords = some [js "low"] ∧
      js "ow" ∈ queryTermsOf (js "chest pain ow") ∧ (js "ow").length ≤ 2 ∧
      (∃ kw ∈ [js "low"], containsSub (jsToLower kw) (js "ow") = true) ∧
      (List.filter (keywordMatch (queryLowerOf (js "chest pain ow"))
        (queryTermsOf (js "chest pain ow"))) [js "low"]).length = 1 ∧
      (∀ u ∈ queryTermsOf (js "chest pain ow"),
        termSummandE (searchableText c6B) u = Except.ok 0)) ∧
    (resourceScoreE (js "chest pain ow") c6B = Except.ok 30 ∧
      (∃ nA, resourceScoreE (js "chest pain ow") c6A = Except.ok nA ∧ 30 < nA) ∧
      List.indexOf c6A [c6A, c6B] < List.indexOf c6B [c6A, c6B]) :=
  ⟨⟨by decide, by decide, by decide, by decide, by decide, by decide, by decide,
      by decide, by decide, by decide, by decide⟩,
    claim_C6_phrase_dominates (js "chest pain ow") [c6B, c6A] [c6A, c6B] c6A c6B
      [js "low"] (js "ow") (by decide) (by decide) (by decide) (by decide) (by decide)
      (by decide) (by decide) (by decide) (by decide) (by decide) (by decide)⟩

/-- Claim C10: the searchable blob separates consecutive fields with
non-empty whitespace runs (and pads both ends), so a whitespace-free
query can be a substring of the blob only by being a substring of a
single field — lowercased title, category, content, or the
space-joined keywords — never by bridging two fields. -/
theorem claim_C10_no_field_bridging (r : Resource) (q : JsStr)
    (hq : ∀ c ∈ q, jsIsWs c = false)
    (h : containsSub (searchableText r) q = true) :
    containsSub (jsToLower r.title) q = true ∨
    containsSub (jsToLower r.category) q = true ∨
    containsSub (jsToLower r.content) q = true ∨
    containsSub (jsToLower (kwText r.keywords)) q = true := by
  rw [searchableText_decomp] at h
  simp only [List.append_assoc] at h
  have hws0 : ∀ c ∈ js "\n      ", jsIsWs c = true := by decide
  have hws1 : ∀ c ∈ js " \n      ", jsIsWs c = true := by decide
  have hws4 : ∀ c ∈ js "\n    ", jsIsWs c = true := by decide
  have hne1 : js " \n      " ≠ [] := by decide
  have h1 := containsSub_stripFront (js "\n      ") _ q hws0 hq h
  rcases containsSub_splitMid (js " \n      ") q hws1 hne1 hq (jsToLower r.title) _ h1
    with hT | h2
  · exact Or.inl hT
  rcases containsSub_splitMid (js " \n      ") q hws1 hne1 hq (jsToLower r.category) _ h2
    with hC | h3
  · exact Or.inr (Or.inl hC)
  rcases containsSub_splitMid (js " \n      ") q hws1 hne1 hq (jsToLower r.content) _ h3
    with hCt | h4
  · exact Or.inr (Or.inr (Or.inl hCt))
  exact Or.inr (Or.inr (Or.inr
    (containsSub_stripBack (js "\n    ") q hws4 hq _ h4)))

theorem claim_C10_witness :
    ((∀ c ∈ js "symptoms", jsIsWs c = false) ∧
      containsSub (searchableText heartDoc) (js "symptoms") = true) ∧
    (containsSub (jsToLower heartDoc.title) (js "symptoms") = true ∨
      containsSub (jsToLower heartDoc.category) (js "symptoms") = true ∨
      containsSub (jsToLower heartDoc.content) (js "symptoms") = true ∨
      containsSub (jsToLower (kwText heartDoc.keywords)) (js "symptoms") = true) :=
  ⟨⟨by decide, by decide⟩,
    claim_C10_no_field_bridging heartDoc (js "symptoms") (by decide) (by decide)⟩

end AhaSearch
